import Mathlib

/-
Verification of the screen compositor of the `ink` fork (`output.ts`,
`components/PixelTransform.tsx`).

Shallow embedding conventions:
* A JS string of ANSI-styled text is modelled as a `List StyledChar`
  (the styled characters `@alcalzone/ansi-tokenize` would produce), so
  `styledCharsFromTokens (tokenize line)` is the identity, `stringWidth`
  sums the visual widths and `sliceAnsi` slices by visual columns
  without splitting a double-width glyph (a glyph is kept exactly when
  its whole column span fits inside the requested range, matching the
  `visible > begin && visible <= end` accounting of `slice-ansi`).
* A multi-line `text` argument of `write` is modelled already split on
  newlines, as a `List Styled` (`text.split('\n')` in the source).
* The character grid rows are JS arrays that the source indexes past
  their end (`currentLine[offsetX] = character`), creating holes that
  `line.filter(item => item !== undefined)` later removes.  A row is
  therefore a `List (Option StyledChar)` where `none` is a hole, and
  assignment past the end pads with holes; assignment at a negative
  index is a no-op on the array elements, as in JS.
* The process-wide pixel-transformation registry (a `Set` iterated in
  insertion order) is passed to `Output.get` as a `List Transformation`.
* Numbers that can be negative (coordinates, clip bounds, visual
  columns) are `Int`; sizes are `Nat`.
-/

/-- One styled character cell as produced by `@alcalzone/ansi-tokenize`:
a display value (possibly empty for the continuation cell of a wide
glyph), a full-width flag and the active style annotations. -/
structure StyledChar where
  value : String
  fullWidth : Bool
  styles : List String
deriving DecidableEq, Repr

/-- A JS string of styled text, as its tokenized styled characters. -/
abbrev Styled := List StyledChar

/-- The blank cell the buffer is initialised with. -/
def spaceChar : StyledChar := { value := " ", fullWidth := false, styles := [] }

/-- The check `character.fullWidth || character.value.length > 1` used by
the paste loop of `Output.get`. -/
def isWideCharacter (c : StyledChar) : Bool :=
  c.fullWidth || decide (1 < c.value.length)

/-- Visual width of one styled character: continuation cells are
invisible, wide characters cover two columns, anything else one. -/
def charWidth (c : StyledChar) : Nat :=
  if c.value = "" then 0 else if isWideCharacter c then 2 else 1

/-- `string-width`: visual width of a styled string. -/
def stringWidth : Styled → Nat
  | [] => 0
  | c :: rest => charWidth c + stringWidth rest

/-- `widest-line`: the largest visual line width of a multi-line text. -/
def widestLine (lines : List Styled) : Nat :=
  lines.foldl (fun m l => max m (stringWidth l)) 0

/-- Worker for `sliceAnsi`: `pos` is the visual column in front of the
current character; a character of width `w` is kept exactly when
`b < pos + w ∧ pos + w ≤ e`, the accounting `slice-ansi` performs with
its running `visible` counter (so a double-width glyph is never split). -/
def sliceChars : Styled → Int → Int → Int → Styled
  | [], _, _, _ => []
  | c :: rest, pos, b, e =>
    if b < pos + (charWidth c : Int) ∧ pos + (charWidth c : Int) ≤ e then
      c :: sliceChars rest (pos + (charWidth c : Int)) b e
    else sliceChars rest (pos + (charWidth c : Int)) b e

/-- `slice-ansi` with explicit begin and end visual columns. -/
def sliceAnsi (s : Styled) (b e : Int) : Styled := sliceChars s 0 b e

/-- `slice-ansi` with the end argument omitted: slice to the end. -/
def sliceAnsiFrom (s : Styled) (b : Int) : Styled :=
  sliceChars s 0 b (stringWidth s)

/-- Whether `String.prototype.trimEnd` would remove this cell when the
row is serialised: an unstyled space, or an unstyled continuation cell
(which contributes nothing to the serialised string). -/
def isBlankChar (c : StyledChar) : Bool :=
  (c.value == " " || c.value == "") && c.styles.isEmpty

/-- The `.trimEnd()` applied to each serialised row. -/
def trimEnd (s : Styled) : Styled :=
  (s.reverse.dropWhile isBlankChar).reverse

/-- A clip rectangle; each bound may be absent (`undefined`). -/
structure Clip where
  x1 : Option Int
  x2 : Option Int
  y1 : Option Int
  y2 : Option Int
deriving DecidableEq, Repr

/-- An `OutputTransformer`: rewrites a line given its 0-based index
within the write. -/
abbrev Transformer := Styled → Nat → Styled

/-- The operation log entries of `Output`. -/
inductive Operation where
  | write (x y : Int) (text : List Styled) (transformers : List Transformer)
  | clip (c : Clip)
  | unclip

/-- A buffer row: a JS array of cells where `none` is a hole
(`undefined`). -/
abbrev BufRow := List (Option StyledChar)

/-- The output buffer: a list of rows. -/
abbrev Buffer := List BufRow

/-- The blank `height × width` buffer `Output.get` starts from. -/
def initBuffer (width height : Nat) : Buffer :=
  List.replicate height (List.replicate width (some spaceChar))

/-- JS array read `buffer[i]`: `undefined` for a negative or
out-of-range index. -/
def bufGet? (buffer : Buffer) (i : Int) : Option BufRow :=
  if i < 0 then none else buffer.get? i.toNat

/-- Replace row `i` of the buffer (only reached for indexes that
`bufGet?` resolved). -/
def bufSet (buffer : Buffer) (i : Int) (row : BufRow) : Buffer :=
  if i < 0 then buffer else buffer.set i.toNat row

/-- JS assignment `row[i] = c`: ignored at a negative index, in-place
for an existing index, and padding with holes past the end. -/
def setCell (row : BufRow) (i : Int) (c : StyledChar) : BufRow :=
  if i < 0 then row
  else if i.toNat < row.length then row.set i.toNat (some c)
  else row ++ List.replicate (i.toNat - row.length) none ++ [some c]

/-- The empty continuation cell written after a wide character. -/
def continuationCell (styles : List String) : StyledChar :=
  { value := "", fullWidth := false, styles := styles }

/-- The character loop of `Output.get`: paste styled characters into a
row starting at visual column `offsetX`, writing a continuation cell
after each wide character and advancing by its width. -/
def pasteChars : BufRow → Int → List StyledChar → BufRow
  | row, _, [] => row
  | row, offsetX, c :: rest =>
    if isWideCharacter c then
      pasteChars (setCell (setCell row offsetX c) (offsetX + 1)
        (continuationCell c.styles)) (offsetX + 2) rest
    else
      pasteChars (setCell row offsetX c) (offsetX + 1) rest

/-- The line loop of `Output.get`: for each line, look the target row up
(skipping the line, without advancing `offsetY`, when the row is
missing), apply the write's transformers in order, and paste the
characters at the anchor column. -/
def pasteLines (x y : Int) (transformers : List Transformer) :
    List Styled → Nat → Int → Buffer → Buffer
  | [], _, _, buffer => buffer
  | line :: rest, index, offsetY, buffer =>
    match bufGet? buffer (y + offsetY) with
    | none => pasteLines x y transformers rest (index + 1) offsetY buffer
    | some currentLine =>
      let line := transformers.foldl (fun l t => t l index) line
      pasteLines x y transformers rest (index + 1) (offsetY + 1)
        (bufSet buffer (y + offsetY) (pasteChars currentLine x line))

/-- The early horizontal visibility check: with both horizontal bounds
present, skip the write when `x + widestLine text < x1 || x > x2`. -/
def horizontalSkip (clip : Clip) (x : Int) (text : List Styled) : Bool :=
  match clip.x1, clip.x2 with
  | some x1, some x2 => decide (x + (widestLine text : Int) < x1) || decide (x2 < x)
  | _, _ => false

/-- The early vertical visibility check: with both vertical bounds
present, skip the write when `y + lines.length < y1 || y > y2`. -/
def verticalSkip (clip : Clip) (y : Int) (text : List Styled) : Bool :=
  match clip.y1, clip.y2 with
  | some y1, some y2 => decide (y + (text.length : Int) < y1) || decide (y2 < y)
  | _, _ => false

/-- Horizontal clipping: with both horizontal bounds present, slice each
line to the visible column span and clamp the anchor up to `x1`. -/
def horizontalSlice (clip : Clip) (x : Int) (lines : List Styled) :
    Int × List Styled :=
  match clip.x1, clip.x2 with
  | some x1, some x2 =>
    let lines := lines.map fun line =>
      let f := if x < x1 then x1 - x else 0
      let w : Int := stringWidth line
      let t := if x2 < x + w then x2 - x else w
      sliceAnsi line f t
    (if x < x1 then x1 else x, lines)
  | _, _ => (x, lines)

/-- JS `Array.prototype.slice` for the non-negative indexes the vertical
clip produces. -/
def listSlice (l : List Styled) (f t : Int) : List Styled :=
  (l.take t.toNat).drop f.toNat

/-- Vertical clipping: with both vertical bounds present, drop the lines
outside the visible row span and clamp the anchor down to `y1`. -/
def verticalSlice (clip : Clip) (y : Int) (lines : List Styled) :
    Int × List Styled :=
  match clip.y1, clip.y2 with
  | some y1, some y2 =>
    let f := if y < y1 then y1 - y else 0
    let h : Int := lines.length
    let t := if y2 < y + h then y2 - y else h
    (if y < y1 then y1 else y, listSlice lines f t)
  | _, _ => (y, lines)

/-- The `write` branch of the replay loop: consult only the top of the
clip stack; check horizontal then vertical visibility (skipping the
whole write on failure), slice horizontally then vertically, and paste
the surviving lines. -/
def applyWrite (clips : List Clip) (x y : Int) (text : List Styled)
    (transformers : List Transformer) (buffer : Buffer) : Buffer :=
  match clips.head? with
  | none => pasteLines x y transformers text 0 0 buffer
  | some clip =>
    if horizontalSkip clip x text then buffer
    else if verticalSkip clip y text then buffer
    else
      let hs := horizontalSlice clip x text
      let vs := verticalSlice clip y hs.2
      pasteLines hs.1 vs.1 transformers vs.2 0 0 buffer

/-- One replay step of `Output.get`.  The clip stack has its top at the
head (`clips.at(-1)` is the head, `pop` on an empty stack is a no-op). -/
def applyOp (st : List Clip × Buffer) (op : Operation) : List Clip × Buffer :=
  match op with
  | .clip c => (c :: st.1, st.2)
  | .unclip => (st.1.tail, st.2)
  | .write x y text transformers =>
    (st.1, applyWrite st.1 x y text transformers st.2)

/-- Replay the operation log in submission order. -/
def replayOps (ops : List Operation) (st : List Clip × Buffer) :
    List Clip × Buffer :=
  ops.foldl applyOp st

/-- How one operation changes the clip stack alone (writes leave it
untouched). -/
def clipStackStep (clips : List Clip) (op : Operation) : List Clip :=
  match op with
  | .clip c => c :: clips
  | .unclip => clips.tail
  | .write _ _ _ _ => clips

/-- The clip stack after replaying a log from an empty stack. -/
def clipsAfter (ops : List Operation) : List Clip :=
  ops.foldl clipStackStep []

/-- Serialise one buffer row: drop the holes
(`filter(item => item !== undefined)`), render the styled characters and
trim the trailing whitespace. -/
def serializeRow (row : BufRow) : Styled :=
  trimEnd (row.filterMap id)

/-- A point of a pixel-transformation range. -/
structure PixelPoint where
  x : Int
  y : Int
deriving DecidableEq, Repr

/-- An inclusive rectangular pixel range. -/
structure PixelRange where
  start : PixelPoint
  «end» : PixelPoint
deriving DecidableEq, Repr

/-- A registered pixel transformation. -/
structure Transformation where
  range : PixelRange
  transform : Styled → Styled

/-- The horizontal span (before clamping) the pass transforms on row `y`:
the full `[start.x, end.x]` span on a single-line range, and for
multi-row ranges `[start.x, rowWidth-1]` on the first row, the full row
on interior rows and `[0, end.x]` on the last row. -/
def rowSpan (t : Transformation) (y : Nat) (lineWidth : Int) : Int × Int :=
  if t.range.start.y = t.range.«end».y then (t.range.start.x, t.range.«end».x)
  else if (y : Int) = t.range.start.y then (t.range.start.x, lineWidth - 1)
  else if (y : Int) = t.range.«end».y then (0, t.range.«end».x)
  else (0, lineWidth - 1)

/-- The tail of the per-row transformation: ANSI-aware slice into
`before`/`toTransform`/`after`, and if the target is non-empty apply the
transform and reconcile its visual width (truncate when wider, right-pad
with plain spaces when narrower) before reassembling the row. -/
def transformSlice (t : Transformation) (line : Styled) (startX endX : Int) :
    Styled :=
  let before := sliceAnsi line 0 startX
  let toTransform := sliceAnsi line startX (endX + 1)
  let after := sliceAnsiFrom line (endX + 1)
  if toTransform = [] then line
  else
    let transformed := t.transform toTransform
    let originalWidth := stringWidth toTransform
    let transformedWidth := stringWidth transformed
    let adjusted :=
      if originalWidth < transformedWidth then
        sliceAnsi transformed 0 (originalWidth : Int)
      else if transformedWidth < originalWidth then
        transformed ++ List.replicate (originalWidth - transformedWidth) spaceChar
      else transformed
    before ++ adjusted ++ after

/-- The loop body of `applyPixelTransformations` for one row: skip empty
rows (`if (!line) continue`), compute the raw span, clamp it
(`startX = Math.max(0, Math.min(startX, lineWidth))`;
`endX = Math.max(startX, Math.min(endX, lineWidth - 1))`) and transform
the slice. -/
def rowTransform (t : Transformation) (y : Nat) (line : Styled) : Styled :=
  if line = [] then line
  else
    let lineWidth : Int := stringWidth line
    let raw := rowSpan t y lineWidth
    let startX := max 0 (min raw.1 lineWidth)
    let endX := max startX (min raw.2 (lineWidth - 1))
    transformSlice t line startX endX

/-- Spec-modelled companion of `rowTransform`, following the claim's
words for C9: the transformed span is the raw `rowSpan` clamped
(intersected) to `[0, rowVisualWidth - 1]`; when the clamped span is
empty nothing is transformed.  Used only to compare against the
source-derived `rowTransform`. -/
def rowTransformSpec (t : Transformation) (y : Nat) (line : Styled) : Styled :=
  let lineWidth : Int := stringWidth line
  let raw := rowSpan t y lineWidth
  let startX := max raw.1 0
  let endX := min raw.2 (lineWidth - 1)
  if endX < startX then line
  else transformSlice t line startX endX

/-- Apply one registered transformation to every row it covers.  The
source iterates `y` from `start.y` to `end.y` while `y` is a valid row
index, touching each row at most once; rows outside `[start.y, end.y]`
(including every row when the anchor is negative, since a negative `y`
reads `undefined`) are left unchanged, so the loop is equivalently an
index-aware map with the range guard. -/
def applyTransformation (t : Transformation) : Nat → List Styled → List Styled
  | _, [] => []
  | y, line :: rest =>
    (if t.range.start.y ≤ (y : Int) ∧ (y : Int) ≤ t.range.«end».y then
      rowTransform t y line
     else line) :: applyTransformation t (y + 1) rest

/-- The pixel-transform pass: the registry applied in registration
order, each transformation seeing the rows as already rewritten by the
earlier ones. -/
def applyPixelTransformations (pixelTransformations : List Transformation)
    (lines : List Styled) : List Styled :=
  if pixelTransformations.isEmpty then lines
  else
    pixelTransformations.foldl
      (fun transformedLines t => applyTransformation t 0 transformedLines) lines

/-- The `Output` class: buffer dimensions plus the recorded operation
log. -/
structure Output where
  width : Nat
  height : Nat
  operations : List Operation := []

/-- `Output.write`: a no-op for empty text (the empty string splits into
a single empty line), otherwise append a write operation. -/
def Output.write (o : Output) (x y : Int) (text : List Styled)
    (transformers : List Transformer) : Output :=
  if text = [[]] then o
  else { o with operations := o.operations ++ [.write x y text transformers] }

/-- `Output.clip`: append a clip push. -/
def Output.clip (o : Output) (c : Clip) : Output :=
  { o with operations := o.operations ++ [.clip c] }

/-- `Output.unclip`: append a clip pop. -/
def Output.unclip (o : Output) : Output :=
  { o with operations := o.operations ++ [.unclip] }

/-- The result of `Output.get`: the serialised rows (joined with
newlines in the source) and the structural buffer height. -/
structure GetResult where
  output : List Styled
  height : Nat
deriving DecidableEq, Repr

/-- `Output.get`: replay the log against a blank buffer, serialise each
row, run the pixel-transform pass over the rows, and return them
together with the buffer height.  The process-wide registry the source
reads through `getPixelTransformations()` is passed explicitly, in
insertion order. -/
def Output.get (o : Output) (pixelTransformations : List Transformation) :
    GetResult :=
  let buffer := initBuffer o.width o.height
  let st := replayOps o.operations ([], buffer)
  let generatedOutput := st.2.map serializeRow
  let generatedOutput := applyPixelTransformations pixelTransformations generatedOutput
  { output := generatedOutput, height := st.2.length }

/-- A plain unstyled narrow character cell. -/
def plainChar (c : Char) : StyledChar :=
  { value := String.mk [c], fullWidth := false, styles := [] }

/-- A plain unstyled string as styled characters. -/
def plain (s : String) : Styled := s.toList.map plainChar

/-- A double-width glyph cell. -/
def wideGlyph (s : String) : StyledChar :=
  { value := s, fullWidth := true, styles := [] }

/-! ### Replay infrastructure -/

theorem replayOps_append (l₁ l₂ : List Operation) (st : List Clip × Buffer) :
    replayOps (l₁ ++ l₂) st = replayOps l₂ (replayOps l₁ st) :=
  List.foldl_append applyOp st l₁ l₂

theorem replayOps_cons (op : Operation) (ops : List Operation)
    (st : List Clip × Buffer) :
    replayOps (op :: ops) st = replayOps ops (applyOp st op) := rfl

theorem replayOps_nil (st : List Clip × Buffer) : replayOps [] st = st := rfl

theorem applyOp_fst (st : List Clip × Buffer) (op : Operation) :
    (applyOp st op).1 = clipStackStep st.1 op := by
  cases op <;> rfl

theorem replayOps_fst (ops : List Operation) (st : List Clip × Buffer) :
    (replayOps ops st).1 = ops.foldl clipStackStep st.1 := by
  induction ops generalizing st with
  | nil => rfl
  | cons op rest ih =>
    rw [replayOps_cons, ih, applyOp_fst, List.foldl_cons]

theorem bufSet_length (buffer : Buffer) (i : Int) (row : BufRow) :
    (bufSet buffer i row).length = buffer.length := by
  unfold bufSet; split <;> simp

theorem pasteLines_length (x y : Int) (trs : List Transformer)
    (lines : List Styled) (index : Nat) (offsetY : Int) (buffer : Buffer) :
    (pasteLines x y trs lines index offsetY buffer).length = buffer.length := by
  induction lines generalizing index offsetY buffer with
  | nil => rfl
  | cons line rest ih =>
    cases hget : bufGet? buffer (y + offsetY) with
    | none => simp [pasteLines, hget, ih]
    | some cur => simp [pasteLines, hget, ih, bufSet_length]

theorem applyWrite_length (clips : List Clip) (x y : Int) (text : List Styled)
    (trs : List Transformer) (buffer : Buffer) :
    (applyWrite clips x y text trs buffer).length = buffer.length := by
  unfold applyWrite
  cases clips.head? with
  | none => simp [pasteLines_length]
  | some c =>
    by_cases h1 : horizontalSkip c x text <;>
      by_cases h2 : verticalSkip c y text <;>
        simp [h1, h2, pasteLines_length]

theorem applyOp_snd_length (st : List Clip × Buffer) (op : Operation) :
    (applyOp st op).2.length = st.2.length := by
  cases op with
  | write x y text trs => exact applyWrite_length _ _ _ _ _ _
  | clip c => rfl
  | unclip => rfl

theorem replayOps_snd_length (ops : List Operation) (st : List Clip × Buffer) :
    (replayOps ops st).2.length = st.2.length := by
  induction ops generalizing st with
  | nil => rfl
  | cons op rest ih => rw [replayOps_cons, ih, applyOp_snd_length]

theorem initBuffer_length (w h : Nat) : (initBuffer w h).length = h := by
  simp [initBuffer]

theorem get_congr_replay (w h : Nat) (opsA opsB : List Operation)
    (reg : List Transformation)
    (hr : replayOps opsA ([], initBuffer w h) = replayOps opsB ([], initBuffer w h)) :
    Output.get ⟨w, h, opsA⟩ reg = Output.get ⟨w, h, opsB⟩ reg := by
  simp only [Output.get, hr]

/-! ### Blank rows -/

theorem filterMap_id_replicate_some (n : Nat) (c : StyledChar) :
    (List.replicate n (some c)).filterMap id = List.replicate n c := by
  induction n with
  | zero => rfl
  | succ k ih => simp [List.replicate_succ, ih]

theorem dropWhile_replicate_blank (n : Nat) :
    (List.replicate n spaceChar).dropWhile isBlankChar = [] := by
  induction n with
  | zero => rfl
  | succ k ih =>
    have hb : isBlankChar spaceChar = true := by decide
    simp [List.replicate_succ, List.dropWhile_cons, hb, ih]

theorem trimEnd_replicate_space (n : Nat) :
    trimEnd (List.replicate n spaceChar) = [] := by
  unfold trimEnd
  rw [List.reverse_replicate, dropWhile_replicate_blank]
  rfl

theorem serializeRow_blank (w : Nat) :
    serializeRow (List.replicate w (some spaceChar)) = [] := by
  unfold serializeRow
  rw [filterMap_id_replicate_some, trimEnd_replicate_space]

/-- C8 (confirmed): a compositor with an empty operation log yields
exactly `height` blank rows (each trimmed to the empty row), and for
every operation log and registry the `height` value returned by `get()`
is the constructed buffer height, independent of content and of
trailing-whitespace trimming. -/
theorem emptyLog_blank_and_height_structural :
    (∀ w h : Nat, (Output.get ⟨w, h, []⟩ []).output = List.replicate h []) ∧
    (∀ (w h : Nat) (reg : List Transformation) (ops : List Operation),
      (Output.get ⟨w, h, ops⟩ reg).height = h) := by
  constructor
  · intro w h
    show applyPixelTransformations [] ((initBuffer w h).map serializeRow)
        = List.replicate h []
    have : (initBuffer w h).map serializeRow = List.replicate h [] := by
      unfold initBuffer
      rw [List.map_replicate, serializeRow_blank]
    rw [this]; rfl
  · intro w h reg ops
    show (replayOps ops ([], initBuffer w h)).2.length = h
    rw [replayOps_snd_length]
    exact initBuffer_length w h

/-! ### Skipped writes (C1) -/

theorem applyWrite_skip (clips : List Clip) (c : Clip) (x y : Int)
    (text : List Styled) (trs : List Transformer) (buffer : Buffer)
    (htop : clips.head? = some c)
    (h : horizontalSkip c x text = true ∨ verticalSkip c y text = true) :
    applyWrite clips x y text trs buffer = buffer := by
  unfold applyWrite
  rw [htop]
  by_cases h1 : horizontalSkip c x text
  · simp [h1]
  · rcases h with h | h
    · exact absurd h h1
    · simp [h1, h]

/-- C1 (corrected): a write whose rendered extent is strictly outside
the top clip — `x + widestLine text < x1` or `x > x2` when both
horizontal bounds are present, or `y + lines < y1` or `y > y2` when both
vertical bounds are present — is discarded before any slicing: replaying
the log with the write gives exactly the same `get()` result as the log
without it, so no character from the write (not even transformer output)
appears.  At the exact boundary `x + width = x1` (extent still entirely
left of `x1`) the source instead slices the write to empty lines, whose
transformers may still emit characters; see the counterexample. -/
theorem clippingContainment_strict (w h : Nat) (reg : List Transformation)
    (ops₁ ops₂ : List Operation) (x y : Int) (text : List Styled)
    (trs : List Transformer) (c : Clip)
    (htop : (clipsAfter ops₁).head? = some c)
    (hout :
      (∃ x1 x2, c.x1 = some x1 ∧ c.x2 = some x2 ∧
        (x + (widestLine text : Int) < x1 ∨ x2 < x)) ∨
      (∃ y1 y2, c.y1 = some y1 ∧ c.y2 = some y2 ∧
        (y + (text.length : Int) < y1 ∨ y2 < y))) :
    Output.get ⟨w, h, ops₁ ++ Operation.write x y text trs :: ops₂⟩ reg =
      Output.get ⟨w, h, ops₁ ++ ops₂⟩ reg := by
  have hstack : (replayOps ops₁ ([], initBuffer w h)).1 = clipsAfter ops₁ := by
    rw [replayOps_fst]; rfl
  have hskip : horizontalSkip c x text = true ∨ verticalSkip c y text = true := by
    rcases hout with ⟨x1, x2, h1, h2, h3⟩ | ⟨y1, y2, h1, h2, h3⟩
    · left; unfold horizontalSkip; rw [h1, h2]
      rcases h3 with h3 | h3 <;> simp [h3]
    · right; unfold verticalSkip; rw [h1, h2]
      rcases h3 with h3 | h3 <;> simp [h3]
  apply get_congr_replay
  rw [replayOps_append, replayOps_append, replayOps_cons]
  congr 1
  have hw : applyWrite (replayOps ops₁ ([], initBuffer w h)).1 x y text trs
      (replayOps ops₁ ([], initBuffer w h)).2
      = (replayOps ops₁ ([], initBuffer w h)).2 :=
    applyWrite_skip _ c _ _ _ _ _ (by rw [hstack, htop]) hskip
  show ((replayOps ops₁ ([], initBuffer w h)).1, _)
      = replayOps ops₁ ([], initBuffer w h)
  rw [hw]

/-- Witness for C1: a write of `"AB"` at `x = 0` under a clip
`x1 = 5, x2 = 9` (extent strictly left of the clip) leaves `get()`
unchanged. -/
theorem clippingContainment_strict_witness :
    Output.get ⟨10, 1, [Operation.clip ⟨some 5, some 9, none, none⟩] ++
        Operation.write 0 0 [plain "AB"] [] :: []⟩ [] =
      Output.get ⟨10, 1, [Operation.clip ⟨some 5, some 9, none, none⟩] ++ []⟩ [] :=
  clippingContainment_strict 10 1 [] [Operation.clip ⟨some 5, some 9, none, none⟩]
    [] 0 0 [plain "AB"] [] ⟨some 5, some 9, none, none⟩ (by decide)
    (Or.inl ⟨5, 9, rfl, rfl, Or.inl (by decide)⟩)

/-- Counterexample for C1 as stated: the write of `"AB"` at `x = 3` has
rendered extent `[3, 4]`, entirely left of the clip's `x1 = 5`
(`3 + 2 ≤ 5`), yet its transformer output appears in `get()`: the
boundary case `x + width = x1` escapes the early-discard check, the
lines are sliced to empty, and the write's transformer rewrites the
empty line to `"ZZZ"` which is pasted at the clamped anchor. -/
theorem clippingContainment_counterexample :
    (3 : Int) + (widestLine [plain "AB"] : Int) ≤ 5 ∧
    (Output.get ⟨10, 1, [Operation.clip ⟨some 5, some 9, none, none⟩,
        Operation.write 3 0 [plain "AB"] [fun _ _ => plain "ZZZ"]]⟩ []).output
      = [plain "     ZZZ"] ∧
    plain "     ZZZ" ≠ [] :=
  ⟨by decide, by decide, by decide⟩

/-! ### Absent clip bounds (C2) -/

theorem horizontalSkip_none (c : Clip) (x : Int) (text : List Styled)
    (h : c.x1 = none ∨ c.x2 = none) : horizontalSkip c x text = false := by
  rcases c with ⟨cx1, cx2, cy1, cy2⟩
  cases cx1 <;> cases cx2 <;> simp_all [horizontalSkip]

theorem horizontalSlice_none (c : Clip) (x : Int) (lines : List Styled)
    (h : c.x1 = none ∨ c.x2 = none) : horizontalSlice c x lines = (x, lines) := by
  rcases c with ⟨cx1, cx2, cy1, cy2⟩
  cases cx1 <;> cases cx2 <;> simp_all [horizontalSlice]

theorem verticalSkip_none (c : Clip) (y : Int) (text : List Styled)
    (h : c.y1 = none ∨ c.y2 = none) : verticalSkip c y text = false := by
  rcases c with ⟨cx1, cx2, cy1, cy2⟩
  cases cy1 <;> cases cy2 <;> simp_all [verticalSkip]

theorem verticalSlice_none (c : Clip) (y : Int) (lines : List Styled)
    (h : c.y1 = none ∨ c.y2 = none) : verticalSlice c y lines = (y, lines) := by
  rcases c with ⟨cx1, cx2, cy1, cy2⟩
  cases cy1 <;> cases cy2 <;> simp_all [verticalSlice]

theorem horizontalSkip_irrel (x1 x2 y1 y2 y1' y2' : Option Int) (x : Int)
    (text : List Styled) :
    horizontalSkip ⟨x1, x2, y1, y2⟩ x text
      = horizontalSkip ⟨x1, x2, y1', y2'⟩ x text := by
  cases x1 <;> cases x2 <;> rfl

theorem horizontalSlice_irrel (x1 x2 y1 y2 y1' y2' : Option Int) (x : Int)
    (lines : List Styled) :
    horizontalSlice ⟨x1, x2, y1, y2⟩ x lines
      = horizontalSlice ⟨x1, x2, y1', y2'⟩ x lines := by
  cases x1 <;> cases x2 <;> rfl

/-- C2 (corrected): an absent bound does not leave the clip merely
unbounded on that side — it disables clipping on that whole axis.  A
write under a clip missing `x1` or `x2` behaves exactly as under the
same clip with both horizontal bounds removed (and symmetrically for the
vertical axis), and in the spec's concrete scenario (clip with only
`x2 = 4`, write `"Hello World"` at `(0,0)`) the first output row is the
unclipped `"Hello World"`, not `"Hell"`. -/
theorem clipAbsentBound_amended :
    (∀ (c : Clip) (rest : List Clip) (x y : Int) (text : List Styled)
       (trs : List Transformer) (buffer : Buffer),
       c.x1 = none ∨ c.x2 = none →
       applyWrite (c :: rest) x y text trs buffer =
         applyWrite ({ x1 := none, x2 := none, y1 := c.y1, y2 := c.y2 } :: rest)
           x y text trs buffer) ∧
    (∀ (c : Clip) (rest : List Clip) (x y : Int) (text : List Styled)
       (trs : List Transformer) (buffer : Buffer),
       c.y1 = none ∨ c.y2 = none →
       applyWrite (c :: rest) x y text trs buffer =
         applyWrite ({ x1 := c.x1, x2 := c.x2, y1 := none, y2 := none } :: rest)
           x y text trs buffer) ∧
    (Output.get ⟨15, 1, [Operation.clip ⟨none, some 4, none, none⟩,
        Operation.write 0 0 [plain "Hello World"] []]⟩ []).output
      = [plain "Hello World"] := by
  refine ⟨?_, ?_, by decide⟩
  · intro c rest x y text trs buffer h
    unfold applyWrite
    simp only [List.head?_cons]
    rw [horizontalSkip_none c x text h, horizontalSkip_none _ x text (Or.inl rfl),
      horizontalSlice_none c x text h, horizontalSlice_none _ x text (Or.inl rfl)]
    rcases c with ⟨cx1, cx2, cy1, cy2⟩
    simp [verticalSkip, verticalSlice]
  · intro c rest x y text trs buffer h
    rcases c with ⟨cx1, cx2, cy1, cy2⟩
    have hy : cy1 = none ∨ cy2 = none := h
    have hv : ∀ lines, verticalSlice ⟨cx1, cx2, cy1, cy2⟩ y lines = (y, lines) :=
      fun lines => verticalSlice_none _ _ _ hy
    have hv' : ∀ lines, verticalSlice ⟨cx1, cx2, none, none⟩ y lines = (y, lines) :=
      fun lines => verticalSlice_none _ _ _ (Or.inl rfl)
    unfold applyWrite
    simp only [List.head?_cons,
      verticalSkip_none ⟨cx1, cx2, cy1, cy2⟩ y text hy,
      verticalSkip_none ⟨cx1, cx2, none, none⟩ y text (Or.inl rfl),
      horizontalSkip_irrel cx1 cx2 cy1 cy2 none none,
      horizontalSlice_irrel cx1 cx2 cy1 cy2 none none, hv, hv',
      Bool.false_eq_true, if_false]

/-- Witness for C2: concrete instance of the axis-coupling equations. -/
theorem clipAbsentBound_amended_witness :
    applyWrite [⟨none, some 4, none, none⟩] 0 0 [plain "Hi"] []
        (initBuffer 3 1) =
      applyWrite [⟨none, none, none, none⟩] 0 0 [plain "Hi"] []
        (initBuffer 3 1) :=
  clipAbsentBound_amended.1 ⟨none, some 4, none, none⟩ [] 0 0 [plain "Hi"] []
    (initBuffer 3 1) (Or.inl rfl)

/-- Counterexample for C2 as stated: with a clip carrying only `x2 = 4`,
the write `"Hello World"` at `(0,0)` is not clipped at all — the first
row of `get()` is `"Hello World"`, not the claimed `"Hell"`. -/
theorem clipAbsentBound_counterexample :
    (Output.get ⟨15, 1, [Operation.clip ⟨none, some 4, none, none⟩,
        Operation.write 0 0 [plain "Hello World"] []]⟩ []).output
      ≠ [plain "Hell"] ∧
    (Output.get ⟨15, 1, [Operation.clip ⟨none, some 4, none, none⟩,
        Operation.write 0 0 [plain "Hello World"] []]⟩ []).output
      = [plain "Hello World"] :=
  ⟨by decide, by decide⟩

/-! ### Out-of-bounds writes (C3) -/

theorem setCell_neg (row : BufRow) (i : Int) (c : StyledChar) (h : i < 0) :
    setCell row i c = row := by
  unfold setCell; rw [if_pos h]

theorem bufGet?_out (buffer : Buffer) (i : Int)
    (h : i < 0 ∨ (buffer.length : Int) ≤ i) : bufGet? buffer i = none := by
  unfold bufGet?
  rcases h with h | h
  · rw [if_pos h]
  · rw [if_neg (by omega)]
    refine List.get?_eq_none.mpr ?_
    omega

theorem pasteLines_out (x y : Int) (trs : List Transformer)
    (lines : List Styled) (index : Nat) (offsetY : Int) (buffer : Buffer)
    (h : y + offsetY < 0 ∨ (buffer.length : Int) ≤ y + offsetY) :
    pasteLines x y trs lines index offsetY buffer = buffer := by
  induction lines generalizing index with
  | nil => rfl
  | cons line rest ih =>
    have hget : bufGet? buffer (y + offsetY) = none := bufGet?_out _ _ h
    simp [pasteLines, hget, ih]

/-- C3 (corrected): `get()` absorbs out-of-range writes without error,
but only partially by dropping.  A write whose anchor row is negative or
at/below the buffer height contributes nothing (every line misses its
row and is skipped); characters pasted entirely at negative columns
leave the row unchanged; but characters at columns at or beyond the
buffer width are NOT dropped — they extend the row past its end and
reappear in the output after the undefined gap cells are filtered out
(see the counterexample). -/
theorem outOfBounds_amended :
    (∀ (w h : Nat) (reg : List Transformation) (ops : List Operation)
       (x y : Int) (text : List Styled) (trs : List Transformer),
       y < 0 ∨ (h : Int) ≤ y →
       Output.get ⟨w, h, Operation.write x y text trs :: ops⟩ reg =
         Output.get ⟨w, h, ops⟩ reg) ∧
    (∀ (row : BufRow) (x : Int) (cs : List StyledChar),
       x + 2 * (cs.length : Int) ≤ 0 → pasteChars row x cs = row) := by
  constructor
  · intro w h reg ops x y text trs hy
    apply get_congr_replay
    rw [replayOps_cons]
    congr 1
    show ([], applyWrite [] x y text trs (initBuffer w h)) = _
    unfold applyWrite
    simp only [List.head?_nil]
    rw [pasteLines_out]
    rw [initBuffer_length]
    omega
  · intro row x cs h
    induction cs generalizing row x with
    | nil => rfl
    | cons c rest ih =>
      have hneg : x < 0 := by simp at h; omega
      unfold pasteChars
      rw [setCell_neg row x c hneg]
      by_cases hw : isWideCharacter c
      · rw [if_pos hw, setCell_neg row (x + 1) _ (by simp at h; omega)]
        apply ih
        simp at h ⊢
        omega
      · rw [if_neg hw]
        apply ih
        simp at h ⊢
        omega

/-- Witness for C3: a one-row buffer absorbs a write at row 5 with no
effect, and a paste entirely at negative columns is dropped. -/
theorem outOfBounds_amended_witness :
    (Output.get ⟨2, 1, [Operation.write 0 5 [plain "A"] []]⟩ [] =
      Output.get ⟨2, 1, []⟩ []) ∧
    pasteChars (List.replicate 2 (some spaceChar)) (-4) (plain "AB")
      = List.replicate 2 (some spaceChar) :=
  ⟨outOfBounds_amended.1 2 1 [] [] 0 5 [plain "A"] [] (Or.inr (by decide)),
   outOfBounds_amended.2 _ _ _ (by decide)⟩

/-- Counterexample for C3 as stated: on a `width = 2` buffer, the write
`"AB"` at `x = 3` lands entirely beyond the horizontal extent, yet its
characters appear in `get()` (after the two untouched cells and the
filtered-out hole), instead of being clipped/dropped. -/
theorem outOfBounds_counterexample :
    (Output.get ⟨2, 1, [Operation.write 3 0 [plain "AB"] []]⟩ []).output
      = [plain "  AB"] ∧
    plain "  AB" ≠ [] :=
  ⟨by decide, by decide⟩

/-! ### Unbalanced unclip (C10) -/

/-- C10 (confirmed): an `unclip` replayed while the clip stack is empty
is a no-op (`pop` of an empty stack), so `get()` is unchanged by it; and
a write replayed while the clip stack is empty is pasted by the
unbounded no-clip path, exactly as if no clip region had ever been
pushed. -/
theorem unclipSafety (w h : Nat) (reg : List Transformation)
    (ops₁ ops₂ : List Operation) (x y : Int) (text : List Styled)
    (trs : List Transformer)
    (hempty : clipsAfter ops₁ = []) :
    Output.get ⟨w, h, ops₁ ++ Operation.unclip :: ops₂⟩ reg =
      Output.get ⟨w, h, ops₁ ++ ops₂⟩ reg ∧
    (replayOps (ops₁ ++ [Operation.write x y text trs]) ([], initBuffer w h)).2 =
      pasteLines x y trs text 0 0 ((replayOps ops₁ ([], initBuffer w h)).2) := by
  have hstack : (replayOps ops₁ ([], initBuffer w h)).1 = [] := by
    rw [replayOps_fst]
    exact hempty
  constructor
  · apply get_congr_replay
    rw [replayOps_append, replayOps_append, replayOps_cons]
    congr 1
    show ((replayOps ops₁ ([], initBuffer w h)).1.tail, _) = _
    rw [hstack]
    exact Prod.ext hstack.symm rfl
  · rw [replayOps_append, replayOps_cons, replayOps_nil]
    show (applyOp (replayOps ops₁ ([], initBuffer w h)) _).2 = _
    rcases hr : replayOps ops₁ ([], initBuffer w h) with ⟨clips, buffer⟩
    have : clips = [] := by rw [hr] at hstack; exact hstack
    subst this
    rfl

/-- Witness for C10: a balanced clip/unclip prefix leaves the stack
empty, after which an extra `unclip` is a no-op and a write is pasted
unbounded. -/
theorem unclipSafety_witness :
    Output.get ⟨2, 1, [Operation.clip ⟨none, none, none, none⟩,
        Operation.unclip] ++ Operation.unclip :: []⟩ [] =
      Output.get ⟨2, 1, [Operation.clip ⟨none, none, none, none⟩,
        Operation.unclip] ++ []⟩ [] ∧
    (replayOps ([Operation.clip ⟨none, none, none, none⟩, Operation.unclip] ++
        [Operation.write 0 0 [plain "A"] []]) ([], initBuffer 2 1)).2 =
      pasteLines 0 0 [] [plain "A"] 0 0
        ((replayOps [Operation.clip ⟨none, none, none, none⟩, Operation.unclip]
          ([], initBuffer 2 1)).2) :=
  unclipSafety 2 1 [] [Operation.clip ⟨none, none, none, none⟩, Operation.unclip]
    [] 0 0 [plain "A"] [] (by decide)

/-! ### Cell-level facts about pasting (C6, C7) -/

theorem setCell_length_le (row : BufRow) (i : Int) (c : StyledChar) :
    row.length ≤ (setCell row i c).length := by
  unfold setCell
  by_cases hneg : i < 0
  · rw [if_pos hneg]
  · rw [if_neg hneg]
    by_cases hl : i.toNat < row.length
    · rw [if_pos hl]; simp
    · rw [if_neg hl]; simp

theorem setCell_length_gt (row : BufRow) (i : Int) (c : StyledChar) (h : 0 ≤ i) :
    i.toNat < (setCell row i c).length := by
  unfold setCell
  rw [if_neg (by omega)]
  by_cases hl : i.toNat < row.length
  · rw [if_pos hl]; simpa using hl
  · rw [if_neg hl]; simp; omega

theorem setCell_get_self (row : BufRow) (i : Int) (c : StyledChar) (h : 0 ≤ i) :
    (setCell row i c)[i.toNat]? = some (some c) := by
  unfold setCell
  rw [if_neg (by omega)]
  by_cases hl : i.toNat < row.length
  · rw [if_pos hl]
    simp [List.getElem?_set_self', hl]
  · rw [if_neg hl]
    have hlen : (row ++ List.replicate (i.toNat - row.length) none).length = i.toNat := by
      simp; omega
    rw [List.getElem?_append, hlen, if_neg (by omega)]
    simp

theorem setCell_get_ne (row : BufRow) (i : Int) (c : StyledChar) (j : Nat)
    (hj : j < row.length) (hne : (j : Int) ≠ i) :
    (setCell row i c)[j]? = row[j]? := by
  unfold setCell
  by_cases hneg : i < 0
  · rw [if_pos hneg]
  · rw [if_neg hneg]
    by_cases hl : i.toNat < row.length
    · rw [if_pos hl]
      exact List.getElem?_set_ne (by omega)
    · rw [if_neg hl]
      rw [List.getElem?_append, if_pos (by simp; omega),
        List.getElem?_append, if_pos hj]

theorem pasteChars_length_le (cs : List StyledChar) (row : BufRow) (x : Int) :
    row.length ≤ (pasteChars row x cs).length := by
  induction cs generalizing row x with
  | nil => exact le_refl _
  | cons c rest ih =>
    by_cases hw : isWideCharacter c
    · simp only [pasteChars, hw, if_true]
      exact le_trans (setCell_length_le _ _ _)
        (le_trans (setCell_length_le _ _ _) (ih _ _))
    · simp only [pasteChars, hw, Bool.false_eq_true, if_false]
      exact le_trans (setCell_length_le _ _ _) (ih _ _)

theorem pasteChars_get_lt (cs : List StyledChar) (row : BufRow) (x : Int)
    (j : Nat) (hjx : (j : Int) < x) (hj : j < row.length) :
    (pasteChars row x cs)[j]? = row[j]? := by
  induction cs generalizing row x with
  | nil => rfl
  | cons c rest ih =>
    by_cases hw : isWideCharacter c
    · simp only [pasteChars, hw, if_true]
      rw [ih _ (x + 2) (by omega)
        (lt_of_lt_of_le hj (le_trans (setCell_length_le _ _ _) (setCell_length_le _ _ _)))]
      rw [setCell_get_ne _ _ _ j (lt_of_lt_of_le hj (setCell_length_le _ _ _)) (by omega)]
      rw [setCell_get_ne _ _ _ j hj (by omega)]
    · simp only [pasteChars, hw, Bool.false_eq_true, if_false]
      rw [ih _ (x + 1) (by omega) (lt_of_lt_of_le hj (setCell_length_le _ _ _))]
      rw [setCell_get_ne _ _ _ j hj (by omega)]

theorem pasteChars_get_at (cs : List StyledChar) (row : BufRow) (x : Int)
    (hx : 0 ≤ x) (hn : ∀ ch ∈ cs, isWideCharacter ch = false)
    (k : Nat) (hk : k < cs.length) :
    (pasteChars row x cs)[x.toNat + k]? = some (some cs[k]) := by
  induction cs generalizing row x k with
  | nil => exact absurd hk (by simp)
  | cons c rest ih =>
    have hwc : isWideCharacter c = false := hn c (List.mem_cons_self _ _)
    simp only [pasteChars, hwc, Bool.false_eq_true, if_false]
    cases k with
    | zero =>
      rw [Nat.add_zero]
      rw [pasteChars_get_lt rest _ (x + 1) x.toNat (by omega)
        (setCell_length_gt row x c hx)]
      simpa using setCell_get_self row x c hx
    | succ k' =>
      have hidx : x.toNat + (k' + 1) = (x + 1).toNat + k' := by omega
      rw [hidx, ih (setCell row x c) (x + 1)
        (by omega) (fun ch hch => hn ch (List.mem_cons_of_mem _ hch)) k'
        (by simpa using hk)]
      simp

/-- C6 (confirmed): composition is last-write-wins per cell.  Pasting a
later run of (narrow) characters at anchor `x` makes every cell it
covers hold exactly the later run's character, regardless of what any
earlier write (or anything else) left in the row; and in the spec's
concrete scenario, writing `"A"` at `(0,0)` then `"B"` at `(0,0)` yields
the final first row `"B"` from `get()`. -/
theorem lastWriteWins :
    (∀ (row : BufRow) (x : Int) (cs : List StyledChar) (k : Nat),
       0 ≤ x → (∀ ch ∈ cs, isWideCharacter ch = false) →
       ∀ hk : k < cs.length,
       (pasteChars row x cs)[x.toNat + k]? = some (some cs[k])) ∧
    (Output.get ⟨5, 1, [Operation.write 0 0 [plain "A"] [],
        Operation.write 0 0 [plain "B"] []]⟩ []).output = [plain "B"] := by
  constructor
  · intro row x cs k hx hn hk
    exact pasteChars_get_at cs row x hx hn k hk
  · decide

/-- Witness for C6: the cell at column 0 after pasting `"B"` over a row
that already holds `"A"` contains `B`. -/
theorem lastWriteWins_witness :
    (pasteChars (pasteChars (List.replicate 3 (some spaceChar)) 0 (plain "A")) 0
        (plain "B"))[(0 : Int).toNat + 0]? = some (some (plain "B")[0]) :=
  lastWriteWins.1 _ 0 (plain "B") 0 (by decide) (by decide) (by decide)

/-- C7 (confirmed): pasting a double-width glyph anchored so it lands at
column `c ≥ 0` occupies columns `c` and `c+1` — the glyph cell at `c`
and an empty continuation cell carrying its styles at `c+1` — and a
subsequent narrow write to column `c+1` overwrites only the continuation
cell, leaving the glyph at column `c` intact. -/
theorem wideCharacterIntegrity (row : BufRow) (x : Int) (g n : StyledChar)
    (hx : 0 ≤ x) (hg : isWideCharacter g = true) (hn : isWideCharacter n = false) :
    (pasteChars row x [g])[x.toNat]? = some (some g) ∧
    (pasteChars row x [g])[x.toNat + 1]? = some (some (continuationCell g.styles)) ∧
    (pasteChars (pasteChars row x [g]) (x + 1) [n])[x.toNat + 1]? = some (some n) ∧
    (pasteChars (pasteChars row x [g]) (x + 1) [n])[x.toNat]? = some (some g) := by
  have hpaste : pasteChars row x [g]
      = setCell (setCell row x g) (x + 1) (continuationCell g.styles) := by
    simp [pasteChars, hg]
  have hco : x.toNat + 1 = (x + 1).toNat := by omega
  have h1 : (pasteChars row x [g])[x.toNat]? = some (some g) := by
    rw [hpaste, setCell_get_ne _ _ _ _ (setCell_length_gt row x g hx) (by omega),
      setCell_get_self row x g hx]
  have h2 : (pasteChars row x [g])[x.toNat + 1]?
      = some (some (continuationCell g.styles)) := by
    rw [hpaste, hco, setCell_get_self _ (x + 1) _ (by omega)]
  have hlen1 : x.toNat < (pasteChars row x [g]).length := by
    rw [hpaste]
    exact lt_of_lt_of_le (setCell_length_gt row x g hx) (setCell_length_le _ _ _)
  have hover : pasteChars (pasteChars row x [g]) (x + 1) [n]
      = setCell (pasteChars row x [g]) (x + 1) n := by
    simp [pasteChars, hn]
  refine ⟨h1, h2, ?_, ?_⟩
  · rw [hover, hco, setCell_get_self _ (x + 1) _ (by omega)]
  · rw [hover, setCell_get_ne _ _ _ _ hlen1 (by omega), h1]

/-- Witness for C7: a concrete wide glyph pasted at column 0 of a blank
row, then a narrow `X` written at column 1. -/
theorem wideCharacterIntegrity_witness :
    (pasteChars (List.replicate 4 (some spaceChar)) 0
        [wideGlyph "W"])[(0 : Int).toNat]? = some (some (wideGlyph "W")) ∧
    (pasteChars (List.replicate 4 (some spaceChar)) 0
        [wideGlyph "W"])[(0 : Int).toNat + 1]?
      = some (some (continuationCell (wideGlyph "W").styles)) ∧
    (pasteChars (pasteChars (List.replicate 4 (some spaceChar)) 0 [wideGlyph "W"])
        ((0 : Int) + 1) [plainChar 'X'])[(0 : Int).toNat + 1]?
      = some (some (plainChar 'X')) ∧
    (pasteChars (pasteChars (List.replicate 4 (some spaceChar)) 0 [wideGlyph "W"])
        ((0 : Int) + 1) [plainChar 'X'])[(0 : Int).toNat]?
      = some (some (wideGlyph "W")) :=
  wideCharacterIntegrity (List.replicate 4 (some spaceChar)) 0 (wideGlyph "W")
    (plainChar 'X') (by decide) (by decide) (by decide)

/-! ### Transform composition (C5) -/

/-- C5 (confirmed): the pixel-transform pass applies registered
transformations in registration order, each seeing the rows as already
rewritten by the earlier ones: registering A then B yields B applied to
the output of A; and on a concrete pair of overlapping transforms this
differs from the reverse composition, so registration order is
observable. -/
theorem transformCompositionOrder :
    (∀ (A B : Transformation) (lines : List Styled),
       applyPixelTransformations [A, B] lines
         = applyTransformation B 0 (applyTransformation A 0 lines)) ∧
    applyPixelTransformations
        [⟨⟨⟨0, 0⟩, ⟨1, 0⟩⟩, fun _ => plain "cd"⟩,
         ⟨⟨⟨0, 0⟩, ⟨1, 0⟩⟩, fun s => s.reverse⟩] [plain "ab"]
      ≠ applyTransformation ⟨⟨⟨0, 0⟩, ⟨1, 0⟩⟩, fun _ => plain "cd"⟩ 0
          (applyTransformation ⟨⟨⟨0, 0⟩, ⟨1, 0⟩⟩, fun s => s.reverse⟩ 0
            [plain "ab"]) := by
  exact ⟨fun A B lines => rfl, by decide⟩

/-! ### Width arithmetic for slices (C4) -/

theorem stringWidth_append (a b : Styled) :
    stringWidth (a ++ b) = stringWidth a + stringWidth b := by
  induction a with
  | nil => simp [stringWidth]
  | cons c rest ih => simp [stringWidth, ih, Nat.add_assoc]

theorem stringWidth_replicate_space (n : Nat) :
    stringWidth (List.replicate n spaceChar) = n := by
  have h1 : charWidth spaceChar = 1 := by decide
  induction n with
  | zero => rfl
  | succ k ih =>
    simp [List.replicate_succ, stringWidth, ih, h1]
    omega

theorem sliceChars_width_add (l : Styled) (pos a b c : Int)
    (hab : a ≤ b) (hbc : b ≤ c) :
    stringWidth (sliceChars l pos a b) + stringWidth (sliceChars l pos b c)
      = stringWidth (sliceChars l pos a c) := by
  induction l generalizing pos with
  | nil => rfl
  | cons ch rest ih =>
    have hih := ih (pos + (charWidth ch : Int))
    unfold sliceChars
    split_ifs <;> (try simp only [stringWidth]) <;> omega

theorem sliceChars_width_full (l : Styled) (pos e : Int)
    (hpos : 0 ≤ pos) (he : pos + (stringWidth l : Int) ≤ e) :
    stringWidth (sliceChars l pos 0 e) = stringWidth l := by
  induction l generalizing pos with
  | nil => rfl
  | cons ch rest ih =>
    simp only [stringWidth] at he
    push_cast at he
    have he' : pos + (charWidth ch : Int) + (stringWidth rest : Int) ≤ e := by omega
    simp only [sliceChars]
    split_ifs with h
    · simp only [stringWidth]
      rw [ih (pos + (charWidth ch : Int)) (by omega) (by omega)]
    · have hw0 : (charWidth ch : Int) = 0 := by omega
      rw [ih (pos + (charWidth ch : Int)) (by omega) (by omega)]
      simp only [stringWidth]
      omega

theorem sliceChars_width_narrow (l : Styled) (pos e : Int)
    (hn : ∀ ch ∈ l, charWidth ch ≤ 1) (hpos : 0 ≤ pos) :
    stringWidth (sliceChars l pos 0 e) = min (stringWidth l) (e - pos).toNat := by
  induction l generalizing pos with
  | nil => simp [sliceChars, stringWidth]
  | cons ch rest ih =>
    have hch : charWidth ch ≤ 1 := hn ch (List.mem_cons_self _ _)
    have hrest := fun (p : Int) (h : 0 ≤ p) =>
      ih p (fun c hc => hn c (List.mem_cons_of_mem _ hc)) h
    simp only [sliceChars]
    split_ifs with h
    · simp only [stringWidth]
      rw [hrest (pos + (charWidth ch : Int)) (by omega)]
      omega
    · rw [hrest (pos + (charWidth ch : Int)) (by omega)]
      simp only [stringWidth]
      omega

theorem sliceChars_nil_of_ge (l : Styled) (pos b e : Int)
    (hb : pos + (stringWidth l : Int) ≤ b) :
    sliceChars l pos b e = [] := by
  induction l generalizing pos with
  | nil => rfl
  | cons ch rest ih =>
    simp only [stringWidth] at hb
    push_cast at hb
    simp only [sliceChars]
    rw [if_neg (by omega), ih (pos + (charWidth ch : Int)) (by omega)]

theorem transformSlice_width (t : Transformation) (line : Styled) (sX eX : Int)
    (hs : 0 ≤ sX) (hse : sX ≤ eX)
    (hnarrow : ∀ s ch, ch ∈ t.transform s → charWidth ch ≤ 1) :
    stringWidth (transformSlice t line sX eX) = stringWidth line := by
  have hpart : stringWidth (sliceChars line 0 0 sX)
      + stringWidth (sliceChars line 0 sX (eX + 1))
      + stringWidth (sliceChars line 0 (eX + 1) (stringWidth line))
      = stringWidth line := by
    have h1 : stringWidth (sliceChars line 0 0 sX)
        + stringWidth (sliceChars line 0 sX (eX + 1))
        = stringWidth (sliceChars line 0 0 (eX + 1)) :=
      sliceChars_width_add line 0 0 sX (eX + 1) hs (by omega)
    by_cases hW : eX + 1 ≤ (stringWidth line : Int)
    · have h2 : stringWidth (sliceChars line 0 0 (eX + 1))
          + stringWidth (sliceChars line 0 (eX + 1) (stringWidth line))
          = stringWidth (sliceChars line 0 0 (stringWidth line)) :=
        sliceChars_width_add line 0 0 (eX + 1) (stringWidth line) (by omega) hW
      have h3 : stringWidth (sliceChars line 0 0 (stringWidth line))
          = stringWidth line :=
        sliceChars_width_full line 0 (stringWidth line) le_rfl (by omega)
      omega
    · have h4 : sliceChars line 0 (eX + 1) (stringWidth line) = [] :=
        sliceChars_nil_of_ge line 0 (eX + 1) _ (by omega)
      have h3 : stringWidth (sliceChars line 0 0 (eX + 1)) = stringWidth line :=
        sliceChars_width_full line 0 (eX + 1) le_rfl (by omega)
      rw [h4]
      simp only [stringWidth]
      omega
  have hadj : ∀ s : Styled,
      stringWidth (if stringWidth s < stringWidth (t.transform s) then
          sliceChars (t.transform s) 0 0 (stringWidth s : Int)
        else if stringWidth (t.transform s) < stringWidth s then
          t.transform s
            ++ List.replicate (stringWidth s - stringWidth (t.transform s)) spaceChar
        else t.transform s) = stringWidth s := by
    intro s
    split_ifs with h1 h2
    · rw [sliceChars_width_narrow (t.transform s) 0 (stringWidth s : Int)
        (fun ch hch => hnarrow s ch hch) le_rfl]
      omega
    · rw [stringWidth_append, stringWidth_replicate_space]
      omega
    · omega
  unfold transformSlice
  simp only [sliceAnsi, sliceAnsiFrom]
  by_cases htgt : sliceChars line 0 sX (eX + 1) = []
  · rw [if_pos htgt]
  · rw [if_neg htgt, stringWidth_append, stringWidth_append,
      hadj (sliceChars line 0 sX (eX + 1))]
    omega

theorem rowTransform_width (t : Transformation)
    (hnarrow : ∀ s ch, ch ∈ t.transform s → charWidth ch ≤ 1)
    (y : Nat) (line : Styled) :
    stringWidth (rowTransform t y line) = stringWidth line := by
  unfold rowTransform
  split_ifs with hempty
  · rfl
  · exact transformSlice_width t line _ _ (le_max_left _ _) (le_max_left _ _) hnarrow

theorem applyTransformation_width (t : Transformation)
    (hnarrow : ∀ s ch, ch ∈ t.transform s → charWidth ch ≤ 1)
    (y0 : Nat) (lines : List Styled) (i : Nat) :
    stringWidth ((applyTransformation t y0 lines).getD i [])
      = stringWidth (lines.getD i []) := by
  induction lines generalizing y0 i with
  | nil => rfl
  | cons line rest ih =>
    cases i with
    | zero =>
      simp only [applyTransformation, List.getD_cons_zero]
      split_ifs with hy
      · exact rowTransform_width t hnarrow y0 line
      · rfl
    | succ i' =>
      simpa only [applyTransformation, List.getD_cons_succ] using ih (y0 + 1) i'

theorem foldl_applyTransformation_width (ts : List Transformation)
    (hnarrow : ∀ t ∈ ts, ∀ s ch, ch ∈ t.transform s → charWidth ch ≤ 1)
    (lines : List Styled) (i : Nat) :
    stringWidth ((ts.foldl (fun acc t => applyTransformation t 0 acc) lines).getD i [])
      = stringWidth (lines.getD i []) := by
  induction ts generalizing lines with
  | nil => rfl
  | cons t rest ih =>
    simp only [List.foldl_cons]
    rw [ih (fun t' ht' => hnarrow t' (List.mem_cons_of_mem _ ht'))
      (applyTransformation t 0 lines)]
    exact applyTransformation_width t (hnarrow t (List.mem_cons_self _ _)) 0 lines i

/-- C4 (corrected): the pixel-transform width invariant holds only when
the width reconciliation is exact.  Narrower transform output is
right-padded to the original span width, and equal-width output is kept,
so whenever the transform's output contains no double-width glyphs
(every output character has visual width at most 1) every row keeps its
visual width through the whole pass.  But wider output is truncated to
AT MOST the original width: when the ANSI-safe cut falls inside a
double-width glyph the glyph is dropped and the row ends up one column
narrower (see the counterexample), so the invariant as claimed fails. -/
theorem pixelTransformWidth_amended :
    (∀ (t : Transformation), (∀ s ch, ch ∈ t.transform s → charWidth ch ≤ 1) →
       ∀ (y : Nat) (line : Styled),
       stringWidth (rowTransform t y line) = stringWidth line) ∧
    (∀ (ts : List Transformation),
       (∀ t ∈ ts, ∀ s ch, ch ∈ t.transform s → charWidth ch ≤ 1) →
       ∀ (lines : List Styled) (i : Nat),
       stringWidth ((applyPixelTransformations ts lines).getD i [])
         = stringWidth (lines.getD i [])) := by
  constructor
  · exact fun t hnarrow y line => rowTransform_width t hnarrow y line
  · intro ts hnarrow lines i
    unfold applyPixelTransformations
    split_ifs with hemp
    · rfl
    · exact foldl_applyTransformation_width ts hnarrow lines i

/-- Witness for C4: a transform with empty (hence glyph-free) output on
a concrete row. -/
theorem pixelTransformWidth_amended_witness :
    stringWidth (rowTransform ⟨⟨⟨0, 0⟩, ⟨1, 0⟩⟩, fun _ => []⟩ 0 (plain "ab"))
      = stringWidth (plain "ab") :=
  pixelTransformWidth_amended.1 ⟨⟨⟨0, 0⟩, ⟨1, 0⟩⟩, fun _ => []⟩
    (fun _ ch hch => absurd hch (List.not_mem_nil ch)) 0 (plain "ab")

/-- Counterexample for C4 as stated: a transform returning two
double-width glyphs (visual width 4) over the span `[0,2]` of the row
`"abc"` (width 3) is truncated ANSI-safely at column 3, which cuts the
second glyph; the glyph is dropped, no padding is added, and the row
width shrinks from 3 to 2. -/
theorem pixelTransformWidth_counterexample :
    applyPixelTransformations
        [⟨⟨⟨0, 0⟩, ⟨2, 0⟩⟩, fun _ => [wideGlyph "W", wideGlyph "V"]⟩]
        [plain "abc"] = [[wideGlyph "W"]] ∧
    stringWidth [wideGlyph "W"] ≠ stringWidth (plain "abc") :=
  ⟨by decide, by decide⟩

/-! ### Pixel-transform span rule (C9) -/

theorem rowTransform_eq (t : Transformation) (y : Nat) (line : Styled) :
    rowTransform t y line =
      if line = [] then line
      else
        transformSlice t line
          (max 0 (min (rowSpan t y (stringWidth line)).1 (stringWidth line : Int)))
          (max (max 0 (min (rowSpan t y (stringWidth line)).1 (stringWidth line : Int)))
            (min (rowSpan t y (stringWidth line)).2 ((stringWidth line : Int) - 1))) :=
  rfl

theorem rowTransformSpec_eq (t : Transformation) (y : Nat) (line : Styled) :
    rowTransformSpec t y line =
      if min (rowSpan t y (stringWidth line)).2 ((stringWidth line : Int) - 1)
          < max (rowSpan t y (stringWidth line)).1 0 then line
      else
        transformSlice t line (max (rowSpan t y (stringWidth line)).1 0)
          (min (rowSpan t y (stringWidth line)).2 ((stringWidth line : Int) - 1)) :=
  rfl

theorem transformSlice_nilTarget (t : Transformation) (line : Styled)
    (sX eX : Int) (h : sliceAnsi line sX (eX + 1) = []) :
    transformSlice t line sX eX = line := by
  simp [transformSlice, h]

theorem applyTransformation_get? (t : Transformation) (lines : List Styled)
    (y0 i : Nat) :
    (applyTransformation t y0 lines)[i]?
      = (lines[i]?).map (fun line =>
          if t.range.start.y ≤ ((y0 + i : Nat) : Int)
              ∧ ((y0 + i : Nat) : Int) ≤ t.range.«end».y
          then rowTransform t (y0 + i) line else line) := by
  induction lines generalizing y0 i with
  | nil => rfl
  | cons line rest ih =>
    cases i with
    | zero => simp [applyTransformation]
    | succ i' =>
      simp only [applyTransformation, List.getElem?_cons_succ]
      rw [ih (y0 + 1) i']
      have hyy : y0 + 1 + i' = y0 + (i' + 1) := by omega
      simp only [hyy]

theorem rowTransform_eq_spec (t : Transformation) (y : Nat) (line : Styled)
    (hsx : 0 ≤ t.range.start.x) (hex : 0 ≤ t.range.«end».x)
    (hxy : t.range.start.y = t.range.«end».y →
      t.range.start.x ≤ t.range.«end».x) :
    rowTransform t y line = rowTransformSpec t y line := by
  have ha : 0 ≤ (rowSpan t y (stringWidth line)).1 := by
    unfold rowSpan; split_ifs <;> simp [hsx]
  have hb : (rowSpan t y (stringWidth line)).2 = (stringWidth line : Int) - 1
      ∨ (0 ≤ (rowSpan t y (stringWidth line)).2
         ∧ (rowSpan t y (stringWidth line)).1
            ≤ (rowSpan t y (stringWidth line)).2) := by
    unfold rowSpan; split_ifs with h1 h2 h3
    · exact Or.inr ⟨hex, hxy h1⟩
    · exact Or.inl rfl
    · exact Or.inr ⟨hex, hex⟩
    · exact Or.inl rfl
  rw [rowTransform_eq, rowTransformSpec_eq]
  by_cases hcase :
      (rowSpan t y (stringWidth line)).1 ≤ (stringWidth line : Int) - 1
  · have hab : (rowSpan t y (stringWidth line)).1
        ≤ (rowSpan t y (stringWidth line)).2 := by
      rcases hb with hb | hb
      · omega
      · exact hb.2
    have hW1 : 1 ≤ (stringWidth line : Int) := by omega
    have hne : line ≠ [] := by
      intro hl
      subst hl
      simp [stringWidth] at hW1
    have h1 : max 0 (min (rowSpan t y (stringWidth line)).1 (stringWidth line : Int))
        = (rowSpan t y (stringWidth line)).1 := by omega
    have h2 : max (rowSpan t y (stringWidth line)).1
        (min (rowSpan t y (stringWidth line)).2 ((stringWidth line : Int) - 1))
        = min (rowSpan t y (stringWidth line)).2 ((stringWidth line : Int) - 1) := by
      omega
    have h3 : max (rowSpan t y (stringWidth line)).1 0
        = (rowSpan t y (stringWidth line)).1 := by omega
    have hguard : ¬(min (rowSpan t y (stringWidth line)).2
        ((stringWidth line : Int) - 1) < max (rowSpan t y (stringWidth line)).1 0) := by
      omega
    rw [if_neg hne, if_neg hguard, h3, h1, h2]
  · have h1 : max 0 (min (rowSpan t y (stringWidth line)).1 (stringWidth line : Int))
        = (stringWidth line : Int) := by omega
    have h2 : max (stringWidth line : Int)
        (min (rowSpan t y (stringWidth line)).2 ((stringWidth line : Int) - 1))
        = (stringWidth line : Int) := by omega
    have hguard : min (rowSpan t y (stringWidth line)).2
        ((stringWidth line : Int) - 1) < max (rowSpan t y (stringWidth line)).1 0 := by
      omega
    have hts : transformSlice t line (stringWidth line : Int)
        (stringWidth line : Int) = line :=
      transformSlice_nilTarget t line _ _
        (sliceChars_nil_of_ge line 0 _ _ (by omega))
    rw [if_pos hguard]
    by_cases hline : line = []
    · rw [if_pos hline]
    · rw [if_neg hline, h1, h2, hts]

/-- C9 (confirmed): the pixel-transform pass touches exactly the rows
`start.y ≤ y ≤ end.y` that exist (all other rows come back unchanged),
and for well-formed ranges (non-negative `start.x` and `end.x`, ordered
span when the range is single-line) the per-row transformation equals
the spec-modelled rule: raw span `[start.x, end.x]` on a single-line
range, `[start.x, rowWidth-1]` on the first row, the full row on
interior rows and `[0, end.x]` on the last row of a multi-row range,
clamped to `[0, rowVisualWidth-1]` before the ANSI-safe slicing. -/
theorem multiRowSpanRule :
    (∀ (t : Transformation) (lines : List Styled) (i : Nat),
       (i : Int) < t.range.start.y ∨ t.range.«end».y < (i : Int) →
       (applyTransformation t 0 lines)[i]? = lines[i]?) ∧
    (∀ (t : Transformation) (y : Nat) (line : Styled),
       0 ≤ t.range.start.x → 0 ≤ t.range.«end».x →
       (t.range.start.y = t.range.«end».y →
         t.range.start.x ≤ t.range.«end».x) →
       rowTransform t y line = rowTransformSpec t y line) := by
  constructor
  · intro t lines i hout
    rw [applyTransformation_get? t lines 0 i]
    have hcond : ¬(t.range.start.y ≤ ((0 + i : Nat) : Int)
        ∧ ((0 + i : Nat) : Int) ≤ t.range.«end».y) := by
      push_cast
      omega
    cases hl : lines[i]? with
    | none => rfl
    | some line => rw [Option.map_some', if_neg hcond]
  · exact fun t y line hsx hex hxy => rowTransform_eq_spec t y line hsx hex hxy

/-- Witness for C9: an untouched row outside the range of a concrete
transformation, and the span rule at a concrete single-line range. -/
theorem multiRowSpanRule_witness :
    (applyTransformation ⟨⟨⟨0, 1⟩, ⟨1, 2⟩⟩, fun s => s⟩ 0 [plain "ab"])[0]?
        = [plain "ab"][0]? ∧
    rowTransform ⟨⟨⟨0, 0⟩, ⟨1, 0⟩⟩, fun s => s⟩ 0 (plain "ab")
      = rowTransformSpec ⟨⟨⟨0, 0⟩, ⟨1, 0⟩⟩, fun s => s⟩ 0 (plain "ab") :=
  ⟨multiRowSpanRule.1 ⟨⟨⟨0, 1⟩, ⟨1, 2⟩⟩, fun s => s⟩ [plain "ab"] 0
      (Or.inl (by decide)),
   multiRowSpanRule.2 ⟨⟨⟨0, 0⟩, ⟨1, 0⟩⟩, fun s => s⟩ 0 (plain "ab")
      (by decide) (by decide) (fun _ => by decide)⟩
